import Mathlib

/-!
Verification of the hybrid retrieval / re-ranking core of the RAG101
repository against its natural-language specification.

The embedded components (shallow embedding, translated from the Python
sources):

* EnsembleRetriever (src/EnsembleRetriever.py): constructor weight
  handling and the rank-based weighted fusion performed by invoke.
* ParentDocumentRetriever (src/InMemoryStore.py): add_documents and
  invoke over an in-memory parent store and a child index.
* MultiQueryRetriever._generate_queries (src/MultiQueryRetriever.py)
  and expand_query (src/RAG_Workbench/backend/rag_core.py): query
  expansion.
* rerank_documents (src/RAG_Workbench/backend/rag_core.py).

Modelling conventions:

* Python float scores are modelled as rationals; the claims under test
  state exact rational values and orderings, never rounding behaviour.
* Python hash of page content is assumed collision-free by the spec, so
  a document's content fingerprint is modelled as the content string
  itself.
* Python dicts preserve insertion order, so the all_docs dict of the
  fusion loop is an association list appended on first sighting.
* Python sorted / list.sort with reverse=True is a stable descending
  sort (ties keep original order); stableSortDesc below implements the
  same function by ordered insertion.
* A Python set has an unspecified iteration order, so the list(set)
  step of ParentDocumentRetriever.invoke is modelled by an explicit
  enumeration parameter constrained to produce a permutation of the
  distinct collected ids.
-/

namespace RAG101

/-- A document: page content plus string-keyed metadata, as used by all
the retrievers in the repository. -/
structure Doc where
  content : String
  meta : List (String × String)
  deriving DecidableEq, Repr

/-- Content fingerprint used as the deduplication key; Python's
hash(page_content) is assumed collision-free by the spec, so the content
string itself serves as the fingerprint. -/
def fingerprint (d : Doc) : String := d.content

/-! ## EnsembleRetriever: constructor (src/EnsembleRetriever.py, __init__) -/

/-- Errors the constructor can raise: the explicit ValueError of the
length check, and the ZeroDivisionError of 1.0 / len(retrievers) when no
weights are supplied and the retriever list is empty. -/
inductive InitError where
  | valueError : InitError
  | zeroDivisionError : InitError
  deriving DecidableEq, Repr

/-- EnsembleRetriever.__init__: when weights is None they default to
[1/N] * N (raising ZeroDivisionError when N = 0); then the length of the
weight list is checked against the number of retrievers. -/
def ensembleInit {R : Type} (retrievers : List R) (weights : Option (List ℚ)) :
    Except InitError (List R × List ℚ) :=
  match weights with
  | none =>
      if retrievers.length = 0 then Except.error InitError.zeroDivisionError
      else Except.ok (retrievers, List.replicate retrievers.length (1 / retrievers.length))
  | some ws =>
      if ws.length ≠ retrievers.length then Except.error InitError.valueError
      else Except.ok (retrievers, ws)

/-! ## EnsembleRetriever.invoke: rank-based weighted fusion -/

/-- The mutable state of the fusion loop: all_docs (a dict keyed by
fingerprint, iterated in insertion order, modelled as an association
list appended on first sighting) and all_doc_scores (a defaultdict(float),
modelled as a total score function defaulting to 0). -/
structure FusionState where
  docs : List (String × Doc)
  score : String → ℚ

/-- The empty fusion state: no documents seen, every score 0. -/
def initFusion : FusionState := ⟨[], fun _ => 0⟩

/-- The score computed by one iteration of the inner loop of
EnsembleRetriever.invoke for a retriever of weight w returning m
documents: ((m - rank) / m) * w, with the source's (unreachable inside
the loop) m = 0 branch yielding w. -/
def fusionTerm (w : ℚ) (m : Nat) (rd : Nat × Doc) : ℚ :=
  if 0 < m then (((m : ℚ) - (rd.1 : ℚ)) / (m : ℚ)) * w else w

/-- One iteration of the inner loop of EnsembleRetriever.invoke: the
document at the given rank contributes fusionTerm to its fingerprint's
score, and the document object is stored only if its fingerprint is
new. -/
def fusionStep (w : ℚ) (m : Nat) (st : FusionState) (rd : Nat × Doc) : FusionState :=
  let h := fingerprint rd.2
  { docs := if st.docs.any (fun p => p.1 = h) then st.docs else st.docs ++ [(h, rd.2)]
    score := fun x => if x = h then st.score x + fusionTerm w m rd else st.score x }

/-- Process one retriever's result list (with its weight): fold the
enumerated document list through fusionStep. -/
def runRetriever (st : FusionState) (run : List Doc × ℚ) : FusionState :=
  (run.1.enum).foldl (fusionStep run.2 run.1.length) st

/-- Accumulation phase of EnsembleRetriever.invoke over the zipped
(retriever result, weight) list. -/
def fuseState (runs : List (List Doc × ℚ)) : FusionState :=
  runs.foldl runRetriever initFusion

/-- Ordered insertion for a stable descending sort: x is placed before
the first element whose key is ≤ its own, hence after every
strictly-greater key and before every tie. -/
def insDesc {α : Type} (key : α → ℚ) (x : α) : List α → List α
  | [] => [x]
  | y :: ys => if key y ≤ key x then x :: y :: ys else y :: insDesc key x ys

/-- Stable descending insertion sort: the same function as Python's
sorted(..., key=..., reverse=True), which keeps equal-key elements in
their original order. -/
def stableSortDesc {α : Type} (key : α → ℚ) : List α → List α
  | [] => []
  | x :: xs => insDesc key x (stableSortDesc key xs)

/-- EnsembleRetriever.invoke after query extraction: accumulate scores
over all (result list, weight) pairs, sort the first-observed document
entries by accumulated score descending (stable), and return the
documents. -/
def ensembleInvoke (runs : List (List Doc × ℚ)) : List Doc :=
  let st := fuseState runs
  (stableSortDesc (fun p => st.score p.1) st.docs).map (fun p => p.2)

/-- The retriever loop of EnsembleRetriever.invoke over fallible
retrievers: each call either returns a list or raises, and the loop has
no exception handler, so the first raise propagates. -/
def collectRuns : List (Except String (List Doc) × ℚ) →
    Except String (List (List Doc × ℚ))
  | [] => Except.ok []
  | rw :: rest =>
    match rw.1 with
    | Except.error e => Except.error e
    | Except.ok l =>
      match collectRuns rest with
      | Except.error e => Except.error e
      | Except.ok rs => Except.ok ((l, rw.2) :: rs)

/-- EnsembleRetriever.invoke as actually executed over fallible
retrievers: run the unguarded retriever loop, then fuse; any single
raise aborts the whole invocation. -/
def ensembleInvokeExc (runs : List (Except String (List Doc) × ℚ)) :
    Except String (List Doc) :=
  match collectRuns runs with
  | Except.error e => Except.error e
  | Except.ok rs => Except.ok (ensembleInvoke rs)

/-! ## ParentDocumentRetriever (src/InMemoryStore.py) -/

/-- Metadata lookup: first binding for the key, as a Python dict get. -/
def metaGet (k : String) (d : Doc) : Option String :=
  (d.meta.find? (fun p => p.1 = k)).map (fun p => p.2)

/-- Metadata upsert: set or overwrite the binding for the key, keeping
an existing key at its position, as assignment into a Python dict. -/
def metaSet (k v : String) (d : Doc) : Doc :=
  if d.meta.any (fun p => p.1 = k) then
    { d with meta := d.meta.map (fun p => if p.1 = k then (k, v) else p) }
  else
    { d with meta := d.meta ++ [(k, v)] }

/-- The parent_id a child contributes during invoke: the metadata value
when present and truthy (Python skips a falsy value, so the empty string
is dropped as well as a missing key). -/
def childParentId (c : Doc) : Option String :=
  match metaGet "parent_id" c with
  | none => none
  | some s => if s = "" then none else some s

/-- The contents of the parent_ids set built by
ParentDocumentRetriever.invoke: the truthy parent_id of every child hit,
with duplicates removed (a canonical listing of the set's elements; the
iteration order of the Python set is supplied separately). -/
def collectParentIds (childDocs : List Doc) : List String :=
  (childDocs.filterMap childParentId).dedup

/-- The in-memory parent docstore as queried by mget: id to stored
parent, none for a missing key. -/
def DocStoreFun : Type := String → Option Doc

/-- ParentDocumentRetriever.invoke after the child similarity search:
build the set of truthy parent ids of the child hits, list it in the
set's iteration order (the enum parameter, constrained in the theorems
to enumerate exactly the set's elements), mget each id, and drop the
None results. -/
def pdrInvoke (enum : List String → List String) (store : String → Option Doc)
    (childDocs : List Doc) : List Doc :=
  (enum (collectParentIds childDocs)).filterMap store

/-- State owned by the ParentDocumentRetriever: the InMemoryStore
backing dict (association list with dict update semantics) and the child
index, which accumulates every child chunk handed to
vectorstore.add_documents. -/
structure PdrState where
  parents : List (String × Doc)
  children : List Doc
  deriving DecidableEq, Repr

/-- InMemoryStore.mset for a single pair, with Python dict assignment
semantics: overwrite the value in place when the key exists (keeping its
insertion position), else append the new binding at the end. -/
def msetOne (kv : String × Doc) : List (String × Doc) → List (String × Doc)
  | [] => [kv]
  | p :: ps => if p.1 = kv.1 then kv :: ps else p :: msetOne kv ps

/-- Lookup in the modelled InMemoryStore dict. -/
def storeLookup (k : String) (m : List (String × Doc)) : Option Doc :=
  (m.find? (fun p => p.1 = k)).map (fun p => p.2)

/-- The fingerprint-derived parent id f-string: parent_ prefixed to the
content fingerprint (Python formats hash(content); the hash is assumed
collision-free, so the content stands in for it). -/
def parentIdOf (p : Doc) : String := "parent_" ++ fingerprint p

/-- The loop body of ParentDocumentRetriever.add_documents for one
parent unit: store the parent under its derived id, split it into
children, stamp parent_id into each child's metadata, and append the
children to the index when there are any (the source guards the append
with a truthiness test on the child list). -/
def addOneParent (childSplit : Doc → List Doc) (st : PdrState) (p : Doc) : PdrState :=
  let pid := parentIdOf p
  let st1 : PdrState := { st with parents := msetOne (pid, p) st.parents }
  let kids := (childSplit p).map (metaSet "parent_id" pid)
  if kids.isEmpty then st1 else { st1 with children := st1.children ++ kids }

/-- ParentDocumentRetriever.add_documents: split the input into parent
units with the coarse splitter, then run the per-parent loop. -/
def addDocuments (parentSplit : List Doc → List Doc) (childSplit : Doc → List Doc)
    (docs : List Doc) (st : PdrState) : PdrState :=
  (parentSplit docs).foldl (addOneParent childSplit) st

/-- The child chunks that a list of parent units contributes to the
child index: each parent's fine split, stamped with that parent's id. -/
def childrenOf (childSplit : Doc → List Doc) (ps : List Doc) : List Doc :=
  (ps.map (fun p => (childSplit p).map (metaSet "parent_id" (parentIdOf p)))).flatten

/-! ## Query expansion (src/MultiQueryRetriever.py _generate_queries,
src/RAG_Workbench/backend/rag_core.py expand_query) -/

/-- Split a character sequence at every newline, as Python's
str.split with separator newline: n separators yield n+1 groups. -/
def splitNL : List Char → List (List Char)
  | [] => [[]]
  | c :: cs =>
    match splitNL cs with
    | [] => [[]]
    | g :: gs => if c = '\n' then [] :: g :: gs else (c :: g) :: gs

/-- Python str.strip on a character sequence: drop whitespace from both
ends. -/
def stripChars (l : List Char) : List Char :=
  ((l.dropWhile Char.isWhitespace).reverse.dropWhile Char.isWhitespace).reverse

/-- Parse the generator's raw response: split on newlines, strip each
line, drop the empty ones. -/
def parseLines (response : String) : List String :=
  (((splitNL response.data).map (fun l => String.mk (stripChars l))).filter
    (fun s => s ≠ ""))

/-- The shared expansion logic of MultiQueryRetriever._generate_queries
and expand_query: parse the generated lines, insert the original
question at position 0 only when it does not already occur among them,
and truncate to n. -/
def generateQueries (question : String) (response : String) (n : Nat) : List String :=
  let queries := parseLines response
  let queries2 := if question ∈ queries then queries else question :: queries
  queries2.take n

/-! ## Reranker (src/RAG_Workbench/backend/rag_core.py rerank_documents) -/

/-- A raw cross-encoder score: none models a NaN prediction, which the
source clamps to 0.0. -/
def clampScore (s : Option ℚ) : ℚ := s.getD 0

/-- rerank_documents: pair each candidate with its clamped score in
input order, stable-sort descending by score, truncate to top_k. The
loop indexes scores[i] for every candidate index i, so a score list
shorter than the candidate list raises IndexError (modelled as none);
extra scores are ignored. -/
def rerankDocuments (query : String) (documents : List Doc)
    (scores : List (Option ℚ)) (k : Nat) : Option (List (Doc × ℚ)) :=
  if documents.length ≤ scores.length then
    some ((stableSortDesc (fun p => p.2) (documents.zip (scores.map clampScore))).take k)
  else
    none

/-! ## Specification-side definitions and concrete instances -/

/-- Modelled from the spec (section 4.3, step 2): the total contribution
of one retriever returning the ordered list L with weight w to the
running score of fingerprint h, namely the sum of w * (m - rank) / m
over the ranks at which a document with that fingerprint occurs. -/
def specRunScore (L : List Doc) (w : ℚ) (h : String) : ℚ :=
  ((L.enum.filter (fun rd => fingerprint rd.2 = h)).map
    (fun rd => w * (((L.length : ℚ) - (rd.1 : ℚ)) / (L.length : ℚ)))).sum

/-- Modelled from the spec (section 4.3, step 3): scores accumulate
additively per fingerprint across all retrievers. -/
def specFusedScore (runs : List (List Doc × ℚ)) (h : String) : ℚ :=
  (runs.map (fun run => specRunScore run.1 run.2 h)).sum

/-- The candidate document A of the spec's worked example (section 8). -/
def docA : Doc := ⟨"A", []⟩

/-- The candidate document B of the spec's worked example. -/
def docB : Doc := ⟨"B", []⟩

/-- The candidate document C of the spec's worked example. -/
def docC : Doc := ⟨"C", []⟩

/-- The spec's worked example: retriever 1 returns [A, B, C] with weight
1/2, retriever 2 returns [C, A] with weight 1/2. -/
def exampleRuns : List (List Doc × ℚ) := [([docA, docB, docC], 1/2), ([docC, docA], 1/2)]

/-- A child chunk whose metadata points at parent id a. -/
def childA : Doc := ⟨"child of a", [("parent_id", "a")]⟩

/-- A child chunk whose metadata points at parent id b. -/
def childB : Doc := ⟨"child of b", [("parent_id", "b")]⟩

/-- A child chunk whose metadata points at the dangling parent id p. -/
def childP : Doc := ⟨"child of p", [("parent_id", "p")]⟩

/-- A parent docstore holding parents under ids a and b. -/
def storeAB : String → Option Doc :=
  fun s => if s = "a" then some docA else if s = "b" then some docB else none

/-- The identity enumeration of a Python set's elements. -/
def idEnum : List String → List String := fun l => l

/-- A reversed enumeration of a Python set's elements; as legitimate an
iteration order for a Python set as the identity one. -/
def revEnum : List String → List String := fun l => l.reverse

/-! ## Lemmas about the stable descending sort -/

theorem insDesc_perm {α : Type} (key : α → ℚ) (x : α) (l : List α) :
    List.Perm (insDesc key x l) (x :: l) := by
  induction l with
  | nil => simp [insDesc]
  | cons y ys ih =>
    by_cases h : key y ≤ key x
    · simp [insDesc, h]
    · simp only [insDesc, if_neg h]
      exact List.Perm.trans (List.Perm.cons y ih) (List.Perm.swap x y ys)

theorem stableSortDesc_perm {α : Type} (key : α → ℚ) (l : List α) :
    List.Perm (stableSortDesc key l) l := by
  induction l with
  | nil => simp [stableSortDesc]
  | cons x xs ih =>
    exact List.Perm.trans (insDesc_perm key x (stableSortDesc key xs)) (List.Perm.cons x ih)

theorem mem_insDesc {α : Type} {key : α → ℚ} {x z : α} {l : List α}
    (h : z ∈ insDesc key x l) : z = x ∨ z ∈ l := by
  have := (insDesc_perm key x l).mem_iff.1 h
  simpa using this

theorem insDesc_sorted {α : Type} {key : α → ℚ} {x : α} {l : List α}
    (h : l.Pairwise (fun a b => key b ≤ key a)) :
    (insDesc key x l).Pairwise (fun a b => key b ≤ key a) := by
  induction l with
  | nil => simp [insDesc]
  | cons y ys ih =>
    rcases List.pairwise_cons.1 h with ⟨hy, hys⟩
    by_cases hc : key y ≤ key x
    · simp only [insDesc, if_pos hc]
      refine List.pairwise_cons.2 ⟨?_, h⟩
      intro z hz
      rcases List.mem_cons.1 hz with rfl | hz
      · exact hc
      · exact le_trans (hy z hz) hc
    · simp only [insDesc, if_neg hc]
      refine List.pairwise_cons.2 ⟨?_, ih hys⟩
      intro z hz
      rcases mem_insDesc hz with rfl | hz
      · exact le_of_not_le hc
      · exact hy z hz

theorem stableSortDesc_sorted {α : Type} (key : α → ℚ) (l : List α) :
    (stableSortDesc key l).Pairwise (fun a b => key b ≤ key a) := by
  induction l with
  | nil => simp [stableSortDesc]
  | cons x xs ih => exact insDesc_sorted ih

theorem insDesc_filter_eq {α : Type} (key : α → ℚ) (x : α) (l : List α) (s : ℚ)
    (hx : key x = s) :
    (insDesc key x l).filter (fun a => key a = s) =
      x :: l.filter (fun a => key a = s) := by
  induction l with
  | nil => simp [insDesc, hx]
  | cons y ys ih =>
    by_cases hc : key y ≤ key x
    · simp only [insDesc, if_pos hc]
      simp [List.filter_cons, hx]
    · have hys : ¬ key y = s := by
        intro hcontra
        exact hc (le_of_eq (hcontra.trans hx.symm))
      simp only [insDesc, if_neg hc]
      simp [List.filter_cons, hys, ih]

theorem insDesc_filter_ne {α : Type} (key : α → ℚ) (x : α) (l : List α) (s : ℚ)
    (hx : ¬ key x = s) :
    (insDesc key x l).filter (fun a => key a = s) =
      l.filter (fun a => key a = s) := by
  induction l with
  | nil => simp [insDesc, hx]
  | cons y ys ih =>
    by_cases hc : key y ≤ key x
    · simp only [insDesc, if_pos hc]
      simp [List.filter_cons, hx]
    · simp only [insDesc, if_neg hc]
      by_cases hy : key y = s
      · simp [List.filter_cons, hy, ih]
      · simp [List.filter_cons, hy, ih]

theorem stableSortDesc_filter {α : Type} (key : α → ℚ) (l : List α) (s : ℚ) :
    (stableSortDesc key l).filter (fun a => key a = s) =
      l.filter (fun a => key a = s) := by
  induction l with
  | nil => simp [stableSortDesc]
  | cons x xs ih =>
    by_cases hx : key x = s
    · rw [stableSortDesc, insDesc_filter_eq key x _ s hx, ih]
      simp [hx]
    · rw [stableSortDesc, insDesc_filter_ne key x _ s hx, ih]
      simp [hx]

theorem stableSortDesc_length {α : Type} (key : α → ℚ) (l : List α) :
    (stableSortDesc key l).length = l.length :=
  (stableSortDesc_perm key l).length_eq

/-! ## Lemmas about the fusion accumulation -/

theorem mem_enumFrom_of_mem {d : Doc} {L : List Doc} (hd : d ∈ L) (n : Nat) :
    ∃ i, (i, d) ∈ L.enumFrom n := by
  induction L generalizing n with
  | nil => cases hd
  | cons x xs ih =>
    rcases List.mem_cons.1 hd with rfl | hd
    · exact ⟨n, by simp [List.enumFrom]⟩
    · rcases ih hd (n + 1) with ⟨i, hi⟩
      exact ⟨i, by simp [List.enumFrom, hi]⟩

theorem mem_of_mem_enumFrom {rd : Nat × Doc} {L : List Doc} {n : Nat}
    (h : rd ∈ L.enumFrom n) : rd.2 ∈ L := by
  induction L generalizing n with
  | nil => cases h
  | cons x xs ih =>
    rcases List.mem_cons.1 h with rfl | h
    · simp
    · exact List.mem_cons.2 (Or.inr (ih h))

theorem foldl_fusionStep_score (w : ℚ) (m : Nat) (ps : List (Nat × Doc))
    (st : FusionState) (h : String) :
    ((ps.foldl (fusionStep w m) st).score h) =
      st.score h + ((ps.filter (fun rd => fingerprint rd.2 = h)).map (fusionTerm w m)).sum := by
  induction ps generalizing st with
  | nil => simp
  | cons rd tl ih =>
    rw [List.foldl_cons, ih]
    by_cases hf : fingerprint rd.2 = h
    · have hstep : (fusionStep w m st rd).score h = st.score h + fusionTerm w m rd := by
        simp [fusionStep, hf.symm]
      have hcond : decide (fingerprint rd.2 = h) = true := by simp [hf]
      rw [hstep, List.filter_cons, if_pos hcond, List.map_cons, List.sum_cons]
      ring
    · have hstep : (fusionStep w m st rd).score h = st.score h := by
        have hne : ¬ h = fingerprint rd.2 := fun hc => hf hc.symm
        simp [fusionStep, hne]
      have hcond : ¬ (decide (fingerprint rd.2 = h) = true) := by simpa using hf
      rw [hstep, List.filter_cons, if_neg hcond]

theorem runRetriever_score (st : FusionState) (L : List Doc) (w : ℚ) (h : String) :
    (runRetriever st (L, w)).score h = st.score h + specRunScore L w h := by
  rw [runRetriever, foldl_fusionStep_score, specRunScore]
  congr 1
  apply congrArg List.sum
  apply List.map_congr_left
  intro rd hrd
  have hmem : rd ∈ L.enum := List.mem_filter.1 hrd |>.1
  have hL : L ≠ [] := by
    intro hc
    subst hc
    simp [List.enum] at hmem
  have hm : 0 < L.length := List.length_pos.2 hL
  simp only [fusionTerm, if_pos hm]
  ring

theorem foldl_runRetriever_score (runs : List (List Doc × ℚ)) (st : FusionState) (h : String) :
    ((runs.foldl runRetriever st).score h) = st.score h + specFusedScore runs h := by
  induction runs generalizing st with
  | nil => simp [specFusedScore]
  | cons r tl ih =>
    obtain ⟨L, w⟩ := r
    rw [List.foldl_cons, ih, runRetriever_score]
    simp only [specFusedScore, List.map_cons, List.sum_cons]
    ring

theorem fuseState_score (runs : List (List Doc × ℚ)) (h : String) :
    (fuseState runs).score h = specFusedScore runs h := by
  rw [fuseState, foldl_runRetriever_score]
  simp [initFusion]

theorem fusionStep_docs_append (w : ℚ) (m : Nat) (st : FusionState) (rd : Nat × Doc) :
    ∃ t, (fusionStep w m st rd).docs = st.docs ++ t := by
  by_cases hc : st.docs.any (fun p => p.1 = fingerprint rd.2)
  · exact ⟨[], by simp [fusionStep, hc]⟩
  · exact ⟨[(fingerprint rd.2, rd.2)], by simp [fusionStep, hc]⟩

theorem foldl_fusionStep_docs_append (w : ℚ) (m : Nat) (ps : List (Nat × Doc))
    (st : FusionState) :
    ∃ t, ((ps.foldl (fusionStep w m) st).docs) = st.docs ++ t := by
  induction ps generalizing st with
  | nil => exact ⟨[], by simp⟩
  | cons rd tl ih =>
    rcases ih (fusionStep w m st rd) with ⟨t1, ht1⟩
    rcases fusionStep_docs_append w m st rd with ⟨t0, ht0⟩
    exact ⟨t0 ++ t1, by rw [List.foldl_cons, ht1, ht0, List.append_assoc]⟩

theorem fusionStep_docs_key (w : ℚ) (m : Nat) (st : FusionState) (rd : Nat × Doc) :
    ∃ p ∈ (fusionStep w m st rd).docs, p.1 = fingerprint rd.2 := by
  by_cases hc : st.docs.any (fun p => p.1 = fingerprint rd.2)
  · rcases List.any_eq_true.1 hc with ⟨p, hp, hpk⟩
    exact ⟨p, by simp [fusionStep, hc, hp], by simpa using hpk⟩
  · exact ⟨(fingerprint rd.2, rd.2), by simp [fusionStep, hc], rfl⟩

theorem foldl_fusionStep_docs_key (w : ℚ) (m : Nat) {ps : List (Nat × Doc)}
    (st : FusionState) {rd : Nat × Doc} (hrd : rd ∈ ps) :
    ∃ p ∈ ((ps.foldl (fusionStep w m) st).docs), p.1 = fingerprint rd.2 := by
  induction ps generalizing st with
  | nil => cases hrd
  | cons hd tl ih =>
    rw [List.foldl_cons]
    rcases List.mem_cons.1 hrd with rfl | hrd
    · rcases fusionStep_docs_key w m st rd with ⟨p, hp, hpk⟩
      rcases foldl_fusionStep_docs_append w m tl (fusionStep w m st rd) with ⟨t, ht⟩
      exact ⟨p, by rw [ht]; exact List.mem_append_left t hp, hpk⟩
    · exact ih (fusionStep w m st hd) hrd

theorem foldl_fusionStep_docs_stable (w : ℚ) (m : Nat) (ps : List (Nat × Doc))
    (st : FusionState)
    (hall : ∀ rd ∈ ps, ∃ p ∈ st.docs, p.1 = fingerprint rd.2) :
    ((ps.foldl (fusionStep w m) st).docs) = st.docs := by
  induction ps generalizing st with
  | nil => simp
  | cons rd tl ih =>
    have hany : st.docs.any (fun p => p.1 = fingerprint rd.2) = true := by
      rcases hall rd (List.mem_cons_self rd tl) with ⟨p, hp, hpk⟩
      exact List.any_eq_true.2 ⟨p, hp, by simpa using hpk⟩
    have hdocs : (fusionStep w m st rd).docs = st.docs := by
      simp [fusionStep, hany]
    have htl : ∀ rd2 ∈ tl, ∃ p ∈ (fusionStep w m st rd).docs, p.1 = fingerprint rd2.2 := by
      intro rd2 hrd2
      rw [hdocs]
      exact hall rd2 (List.mem_cons.2 (Or.inr hrd2))
    rw [List.foldl_cons, ih (fusionStep w m st rd) htl, hdocs]

theorem runRetriever_docs_key (st : FusionState) (L : List Doc) (w : ℚ)
    {d : Doc} (hd : d ∈ L) :
    ∃ p ∈ (runRetriever st (L, w)).docs, p.1 = fingerprint d := by
  rcases mem_enumFrom_of_mem hd 0 with ⟨i, hi⟩
  rw [runRetriever]
  exact foldl_fusionStep_docs_key w L.length st (show (i, d) ∈ L.enum by simpa [List.enum] using hi)

/-! ## Lemmas about filterMap and the parent store -/

theorem length_filterMap_eq_countSome {α β : Type} (f : α → Option β) (l : List α) :
    (l.filterMap f).length = (l.filter (fun a => (f a).isSome)).length := by
  induction l with
  | nil => simp
  | cons x xs ih =>
    cases hfx : f x with
    | none => simp [List.filterMap_cons, List.filter_cons, hfx, ih]
    | some b => simp [List.filterMap_cons, List.filter_cons, hfx, ih]

theorem storeLookup_cons (k : String) (p : String × Doc) (m : List (String × Doc)) :
    storeLookup k (p :: m) = if p.1 = k then some p.2 else storeLookup k m := by
  by_cases h : p.1 = k
  · simp [storeLookup, List.find?, h]
  · simp [storeLookup, List.find?, h]

theorem storeLookup_msetOne_self (kv : String × Doc) (m : List (String × Doc)) :
    storeLookup kv.1 (msetOne kv m) = some kv.2 := by
  induction m with
  | nil => simp [msetOne, storeLookup_cons, storeLookup]
  | cons p ps ih =>
    by_cases hp : p.1 = kv.1
    · simp [msetOne, hp, storeLookup_cons]
    · rw [msetOne, if_neg hp, storeLookup_cons, if_neg hp, ih]

theorem storeLookup_msetOne_ne {k : String} (kv : String × Doc)
    (m : List (String × Doc)) (hk : k ≠ kv.1) :
    storeLookup k (msetOne kv m) = storeLookup k m := by
  have hkv : ¬ (kv.1 = k) := fun hc => hk hc.symm
  induction m with
  | nil => simp [msetOne, storeLookup_cons, storeLookup, hkv]
  | cons p ps ih =>
    by_cases hp : p.1 = kv.1
    · have hpk : ¬ (p.1 = k) := by
        rw [hp]
        exact hkv
      rw [msetOne, if_pos hp, storeLookup_cons, if_neg hkv, storeLookup_cons, if_neg hpk]
    · rw [msetOne, if_neg hp, storeLookup_cons, storeLookup_cons, ih]

theorem parentIdOf_content {p q : Doc} (h : parentIdOf p = parentIdOf q) :
    p.content = q.content := by
  have hdata : ("parent_" ++ p.content).data = ("parent_" ++ q.content).data := by
    rw [show ("parent_" ++ p.content) = parentIdOf p from rfl,
      show ("parent_" ++ q.content) = parentIdOf q from rfl, h]
  rw [String.data_append, String.data_append] at hdata
  have : p.content.data = q.content.data := List.append_cancel_left hdata
  cases hp : p.content
  cases hq : q.content
  simp_all

theorem addOneParent_parents (childSplit : Doc → List Doc) (st : PdrState) (p : Doc) :
    (addOneParent childSplit st p).parents = msetOne (parentIdOf p, p) st.parents := by
  rw [addOneParent]
  split <;> rfl

theorem addOneParent_children (childSplit : Doc → List Doc) (st : PdrState) (p : Doc) :
    (addOneParent childSplit st p).children =
      st.children ++ (childSplit p).map (metaSet "parent_id" (parentIdOf p)) := by
  rw [addOneParent]
  split
  · rename_i hempty
    have : (childSplit p).map (metaSet "parent_id" (parentIdOf p)) = [] :=
      List.isEmpty_iff.1 hempty
    simp [this]
  · rfl

theorem foldl_addOneParent_children (childSplit : Doc → List Doc) (l : List Doc)
    (st : PdrState) :
    ((l.foldl (addOneParent childSplit) st).children) =
      st.children ++ childrenOf childSplit l := by
  induction l generalizing st with
  | nil => simp [childrenOf]
  | cons p ps ih =>
    rw [List.foldl_cons, ih, addOneParent_children]
    simp [childrenOf, List.append_assoc]

theorem foldl_addOneParent_lookup_pres (childSplit : Doc → List Doc) (l : List Doc)
    (st : PdrState) (c : String)
    (hq : ∃ q, storeLookup ("parent_" ++ c) st.parents = some q ∧ q.content = c) :
    ∃ q, storeLookup ("parent_" ++ c) ((l.foldl (addOneParent childSplit) st).parents) =
      some q ∧ q.content = c := by
  induction l generalizing st with
  | nil => simpa using hq
  | cons p ps ih =>
    rw [List.foldl_cons]
    apply ih
    by_cases hk : ("parent_" ++ c) = parentIdOf p
    · have hc : p.content = c := by
        have : parentIdOf p = parentIdOf (⟨c, []⟩ : Doc) := by
          rw [← hk]; rfl
        exact parentIdOf_content this
      refine ⟨p, ?_, hc⟩
      rw [addOneParent_parents, hk]
      exact storeLookup_msetOne_self (parentIdOf p, p) st.parents
    · rcases hq with ⟨q, hq1, hq2⟩
      refine ⟨q, ?_, hq2⟩
      rw [addOneParent_parents, storeLookup_msetOne_ne (parentIdOf p, p) st.parents hk]
      exact hq1

theorem foldl_addOneParent_lookup (childSplit : Doc → List Doc) (l : List Doc)
    (st : PdrState) {p : Doc} (hp : p ∈ l) :
    ∃ q, storeLookup (parentIdOf p) ((l.foldl (addOneParent childSplit) st).parents) =
      some q ∧ q.content = p.content := by
  induction l generalizing st with
  | nil => cases hp
  | cons x xs ih =>
    rw [List.foldl_cons]
    rcases List.mem_cons.1 hp with rfl | hp
    · apply foldl_addOneParent_lookup_pres
      refine ⟨p, ?_, rfl⟩
      rw [addOneParent_parents]
      exact storeLookup_msetOne_self (parentIdOf p, p) st.parents
    · exact ih (addOneParent childSplit st x) hp

/-! ## Lemmas about the fallible retriever loop -/

theorem collectRuns_ok (okruns : List (List Doc × ℚ)) :
    collectRuns (okruns.map (fun r => (Except.ok r.1, r.2))) = Except.ok okruns := by
  induction okruns with
  | nil => rfl
  | cons r rs ih => simp [collectRuns, ih]

theorem collectRuns_error (pre : List (Except String (List Doc) × ℚ)) (e : String)
    (w : ℚ) (post : List (Except String (List Doc) × ℚ))
    (hpre : ∀ rw ∈ pre, ∃ l, rw.1 = Except.ok l) :
    collectRuns (pre ++ (Except.error e, w) :: post) = Except.error e := by
  induction pre with
  | nil => rfl
  | cons rw rest ih =>
    rcases hpre rw (List.mem_cons_self rw rest) with ⟨l, hl⟩
    have hrest : collectRuns (rest ++ (Except.error e, w) :: post) = Except.error e :=
      ih (fun rw2 h2 => hpre rw2 (List.mem_cons.2 (Or.inr h2)))
    simp [collectRuns, hl, hrest]

/-! ## The claims -/

/-- C1: the fusion combiner gives each document returned at rank r in a
retriever's list of length m a contribution of weight * (m - r) / m to
its content fingerprint's score, accumulated additively over all
retrievers; on the spec's worked example (retriever 1 returns [A, B, C]
at weight 1/2, retriever 2 returns [C, A] at weight 1/2) the accumulated
scores are A = 3/4, B = 1/3, C = 2/3 and the fused order is A, C, B. -/
theorem C1_fusion_rank_contribution :
    (∀ (runs : List (List Doc × ℚ)) (h : String),
      (fuseState runs).score h = specFusedScore runs h) ∧
    (fuseState exampleRuns).score "A" = 3/4 ∧
    (fuseState exampleRuns).score "B" = 1/3 ∧
    (fuseState exampleRuns).score "C" = 2/3 ∧
    ensembleInvoke exampleRuns = [docA, docC, docB] := by
  have hA : (fuseState exampleRuns).score "A" = 3/4 := by
    simp +decide only [fuseState, runRetriever, fusionStep, fusionTerm, initFusion, fingerprint,
      List.enum, List.foldl, docA, docB, docC, exampleRuns, List.enumFrom, List.any]
    norm_num
  have hB : (fuseState exampleRuns).score "B" = 1/3 := by
    simp +decide only [fuseState, runRetriever, fusionStep, fusionTerm, initFusion, fingerprint,
      List.enum, List.foldl, docA, docB, docC, exampleRuns, List.enumFrom, List.any]
    norm_num
  have hC : (fuseState exampleRuns).score "C" = 2/3 := by
    simp +decide only [fuseState, runRetriever, fusionStep, fusionTerm, initFusion, fingerprint,
      List.enum, List.foldl, docA, docB, docC, exampleRuns, List.enumFrom, List.any]
    norm_num
  have hdocs : (fuseState exampleRuns).docs = [("A", docA), ("B", docB), ("C", docC)] := by
    simp +decide only [fuseState, runRetriever, fusionStep, fusionTerm, initFusion, fingerprint,
      List.enum, List.foldl, docA, docB, docC, exampleRuns, List.enumFrom, List.any]
  refine ⟨fuseState_score, hA, hB, hC, ?_⟩
  rw [ensembleInvoke, hdocs]
  norm_num [stableSortDesc, insDesc, hA, hB, hC, List.map]

/-- C7: the fused output is the first-observed document entries in an
order that is a permutation of the accumulation order, non-increasing in
accumulated score, and in which entries of equal score keep their
first-observed relative order (the filter characterisation of a stable
sort); the order therefore depends only on scores and first-observed
positions, never on fingerprint values. -/
theorem C7_fused_order (runs : List (List Doc × ℚ)) :
    ∃ sorted : List (String × Doc),
      ensembleInvoke runs = sorted.map (fun p => p.2) ∧
      List.Perm sorted (fuseState runs).docs ∧
      sorted.Pairwise (fun a b => (fuseState runs).score b.1 ≤ (fuseState runs).score a.1) ∧
      ∀ s : ℚ, sorted.filter (fun p => (fuseState runs).score p.1 = s) =
        (fuseState runs).docs.filter (fun p => (fuseState runs).score p.1 = s) :=
  ⟨stableSortDesc (fun p => (fuseState runs).score p.1) (fuseState runs).docs,
    rfl,
    stableSortDesc_perm _ _,
    stableSortDesc_sorted _ _,
    fun s => stableSortDesc_filter _ _ s⟩

/-- C8: feeding the same candidate list through fusion twice, as two
retrievers of the same weight, yields exactly the same first-observed
document entries (hence the same fingerprint set) as feeding it once,
with every fingerprint's accumulated score exactly doubled. -/
theorem C8_dedup_idempotence (L : List Doc) (w : ℚ) :
    (fuseState [(L, w), (L, w)]).docs = (fuseState [(L, w)]).docs ∧
    ((fuseState [(L, w), (L, w)]).docs.map (fun p => p.1)) =
      ((fuseState [(L, w)]).docs.map (fun p => p.1)) ∧
    ∀ h : String, (fuseState [(L, w), (L, w)]).score h = 2 * (fuseState [(L, w)]).score h := by
  have h1 : fuseState [(L, w)] = runRetriever initFusion (L, w) := by
    simp [fuseState]
  have h2 : fuseState [(L, w), (L, w)] = runRetriever (runRetriever initFusion (L, w)) (L, w) := by
    simp [fuseState]
  have hdocs : (fuseState [(L, w), (L, w)]).docs = (fuseState [(L, w)]).docs := by
    rw [h1, h2]
    show ((runRetriever (runRetriever initFusion (L, w)) (L, w)).docs) = _
    rw [runRetriever]
    apply foldl_fusionStep_docs_stable
    intro rd hrd
    have hd : rd.2 ∈ L := mem_of_mem_enumFrom (by simpa [List.enum] using hrd)
    exact runRetriever_docs_key initFusion L w hd
  refine ⟨hdocs, by rw [hdocs], ?_⟩
  intro h
  have hs1 : (fuseState [(L, w)]).score h = specRunScore L w h := by
    rw [h1, runRetriever_score]
    simp [initFusion]
  have hs2 : (fuseState [(L, w), (L, w)]).score h = 2 * specRunScore L w h := by
    rw [h2, runRetriever_score, runRetriever_score]
    simp [initFusion]
    ring
  rw [hs1, hs2]

/-- C2 (counterexample): the parent ids are collected into a Python set,
whose iteration order is unspecified; the reversed enumeration is as
admissible an iteration order as the identity one, yet under it the two
parents come back in the order b, a although parent a's child appeared
first in the similarity-search result — so the retrieval is not
guaranteed to return parents in the order their best child appeared. -/
theorem C2_order_counterexample :
    collectParentIds [childA, childB] = ["a", "b"] ∧
    List.Perm (revEnum (collectParentIds [childA, childB])) (collectParentIds [childA, childB]) ∧
    pdrInvoke revEnum storeAB [childA, childB] = [docB, docA] ∧
    pdrInvoke idEnum storeAB [childA, childB] = [docA, docB] ∧
    ([docB, docA] : List Doc) ≠ [docA, docB] := by
  refine ⟨by decide, ?_, by decide, by decide, by decide⟩
  decide

/-- C2 (amended): for every child-index search result of at most k hits
and every enumeration of the collected parent-id set, the retrieval
returns at most k parents, returns no parent twice (given that distinct
stored ids hold distinct parent records), and every returned parent is
the resolved parent of some matched child — but in the set's
enumeration order, not necessarily first-occurrence order. -/
theorem C2_distinct_parents (enum : List String → List String)
    (store : String → Option Doc) (childDocs : List Doc) (k : Nat)
    (henum : List.Perm (enum (collectParentIds childDocs)) (collectParentIds childDocs))
    (hk : childDocs.length ≤ k)
    (hinj : ∀ i j d, store i = some d → store j = some d → i = j) :
    (pdrInvoke enum store childDocs).length ≤ k ∧
    (pdrInvoke enum store childDocs).Nodup ∧
    ∀ d ∈ pdrInvoke enum store childDocs,
      ∃ pid c, c ∈ childDocs ∧ childParentId c = some pid ∧ store pid = some d := by
  refine ⟨?_, ?_, ?_⟩
  · calc (pdrInvoke enum store childDocs).length
        ≤ (enum (collectParentIds childDocs)).length := List.length_filterMap_le _ _
      _ = (collectParentIds childDocs).length := henum.length_eq
      _ ≤ (childDocs.filterMap childParentId).length :=
          (List.dedup_sublist _).length_le
      _ ≤ childDocs.length := List.length_filterMap_le _ _
      _ ≤ k := hk
  · have hids : (enum (collectParentIds childDocs)).Nodup :=
      henum.nodup_iff.2 (List.nodup_dedup _)
    exact List.Nodup.filterMap
      (fun i j d hi hj => hinj i j d (Option.mem_def.1 hi) (Option.mem_def.1 hj)) hids
  · intro d hd
    rcases List.mem_filterMap.1 hd with ⟨pid, hpid, hstore⟩
    have hpid2 : pid ∈ collectParentIds childDocs := henum.mem_iff.1 hpid
    have hpid3 : pid ∈ childDocs.filterMap childParentId := List.mem_dedup.1 hpid2
    rcases List.mem_filterMap.1 hpid3 with ⟨c, hc, hcp⟩
    exact ⟨pid, c, hc, hcp, hstore⟩

/-- C2 (witness): the amended theorem applied to a one-child search
result over a store holding the single parent a. -/
theorem C2_distinct_parents_witness :
    (pdrInvoke idEnum (fun s => if s = "a" then some docA else none) [childA]).length ≤ 1 ∧
    (pdrInvoke idEnum (fun s => if s = "a" then some docA else none) [childA]).Nodup ∧
    ∀ d ∈ pdrInvoke idEnum (fun s => if s = "a" then some docA else none) [childA],
      ∃ pid c, c ∈ [childA] ∧ childParentId c = some pid ∧
        (fun s => if s = "a" then some docA else none) pid = some d := by
  apply C2_distinct_parents idEnum (fun s => if s = "a" then some docA else none) [childA] 1
  · decide
  · decide
  · intro i j d hi hj
    by_cases hia : i = "a"
    · by_cases hja : j = "a"
      · rw [hia, hja]
      · rw [if_neg hja] at hj
        cases hj
    · rw [if_neg hia] at hi
      cases hi

/-- C3 (counterexample): with two retrievers of weight 1/2 where the
first raises and the second returns [A], the combiner raises instead of
returning the surviving retriever's fused results. -/
theorem C3_failure_propagates_counterexample :
    ensembleInvokeExc [(Except.error "BackendUnavailable", 1/2), (Except.ok [docA], 1/2)] =
      Except.error "BackendUnavailable" ∧
    (Except.error "BackendUnavailable" : Except String (List Doc)) ≠
      Except.ok (ensembleInvoke [([docA], 1/2)]) :=
  ⟨rfl, fun h => Except.noConfusion h⟩

/-- C3 (amended): the retriever loop of the fusion combiner has no
exception handler, so the first failing retriever's error propagates and
aborts the whole invocation even when other retrievers would survive;
the combiner returns fused results exactly when every retriever
succeeds. -/
theorem C3_failure_aborts :
    (∀ (pre : List (Except String (List Doc) × ℚ)) (e : String) (w : ℚ)
        (post : List (Except String (List Doc) × ℚ)),
      (∀ rw ∈ pre, ∃ l, rw.1 = Except.ok l) →
      ensembleInvokeExc (pre ++ (Except.error e, w) :: post) = Except.error e) ∧
    (∀ okruns : List (List Doc × ℚ),
      ensembleInvokeExc (okruns.map (fun r => (Except.ok r.1, r.2))) =
        Except.ok (ensembleInvoke okruns)) := by
  constructor
  · intro pre e w post hpre
    rw [ensembleInvokeExc, collectRuns_error pre e w post hpre]
  · intro okruns
    rw [ensembleInvokeExc, collectRuns_ok]

/-- C3 (witness): the amended theorem applied with one succeeding
retriever before the failing one, and to a singleton list of succeeding
retrievers. -/
theorem C3_failure_aborts_witness :
    ensembleInvokeExc [(Except.ok [docA], 1/2), (Except.error "BackendUnavailable", 1/2)] =
      Except.error "BackendUnavailable" ∧
    ensembleInvokeExc [(Except.ok [docA], 1/2)] = Except.ok (ensembleInvoke [([docA], 1/2)]) :=
  ⟨C3_failure_aborts.1 [(Except.ok [docA], 1/2)] "BackendUnavailable" (1/2) []
      (fun rw hrw => by
        rcases List.mem_singleton.1 hrw with rfl
        exact ⟨[docA], rfl⟩),
    C3_failure_aborts.2 [([docA], 1/2)]⟩

/-- C4 (counterexample): with a store holding parents a and b, a search
result containing a child whose parent_id p is dangling and a child of
parent a returns just [A]: the dangling id is silently filtered out and
the call completes normally instead of failing with a ConsistencyError. -/
theorem C4_dangling_filtered_counterexample :
    storeAB "p" = none ∧
    pdrInvoke idEnum storeAB [childP, childA] = [docA] := by
  constructor
  · decide
  · decide

/-- C4 (amended): ParentDocumentRetriever.invoke resolves ids with mget
and drops the None results, so the number of returned parents equals the
number of resolvable collected ids and every returned parent is a stored
resolution of a collected id; a dangling parent_id contributes nothing
and never makes the call fail. -/
theorem C4_dangling_silently_filtered (enum : List String → List String)
    (store : String → Option Doc) (childDocs : List Doc) :
    (pdrInvoke enum store childDocs).length =
      ((enum (collectParentIds childDocs)).filter
        (fun i => (store i).isSome)).length ∧
    ∀ d ∈ pdrInvoke enum store childDocs,
      ∃ pid ∈ enum (collectParentIds childDocs), store pid = some d := by
  constructor
  · exact length_filterMap_eq_countSome store _
  · intro d hd
    rcases List.mem_filterMap.1 hd with ⟨pid, hpid, hstore⟩
    exact ⟨pid, hpid, hstore⟩

/-- C4 (witness): the amended theorem applied to the dangling-id search
result of the counterexample. -/
theorem C4_dangling_silently_filtered_witness :
    (pdrInvoke idEnum storeAB [childP, childA]).length =
      ((idEnum (collectParentIds [childP, childA])).filter
        (fun i => (storeAB i).isSome)).length ∧
    ∀ d ∈ pdrInvoke idEnum storeAB [childP, childA],
      ∃ pid ∈ idEnum (collectParentIds [childP, childA]), storeAB pid = some d :=
  C4_dangling_silently_filtered idEnum storeAB [childP, childA]

/-- C5 (counterexample): when the generator's output reproduces the
original query q verbatim on a later line, the expansion returns the
parsed lines as they are: q is not first, and a doubled q in the output
is returned twice rather than dropped. -/
theorem C5_original_not_first_counterexample :
    generateQueries "q" "other\nq" 3 = ["other", "q"] ∧
    ("other" : String) ≠ "q" ∧
    generateQueries "q" "q\nq" 3 = ["q", "q"] := by
  refine ⟨by decide, by decide, by decide⟩

/-- C5 (amended): the expansion always returns at most n strings; the
original query is inserted first only when it does not already occur
verbatim among the parsed generator lines, so for n ≥ 1 the first
element is the original query unless the generator reproduced it, in
which case the parsed lines are returned as they are. -/
theorem C5_expansion_bound (q res : String) (n : Nat) :
    (generateQueries q res n).length ≤ n ∧
    (1 ≤ n → q ∉ parseLines res → (generateQueries q res n).head? = some q) ∧
    (1 ≤ n → ((generateQueries q res n).head? = some q ∨ q ∈ parseLines res)) := by
  refine ⟨?_, ?_, ?_⟩
  · rw [generateQueries, List.length_take]
    exact min_le_left _ _
  · intro hn hq
    rw [generateQueries]
    simp only [if_neg hq]
    cases n with
    | zero => cases hn
    | succ m => simp [List.take_succ_cons]
  · intro hn
    by_cases hq : q ∈ parseLines res
    · exact Or.inr hq
    · refine Or.inl ?_
      rw [generateQueries]
      simp only [if_neg hq]
      cases n with
      | zero => cases hn
      | succ m => simp [List.take_succ_cons]

/-- C5 (witness): the amended theorem applied to a generator output that
does not contain the original query. -/
theorem C5_expansion_bound_witness :
    (generateQueries "a" "b\nc" 2).length ≤ 2 ∧
    (generateQueries "a" "b\nc" 2).head? = some "a" :=
  ⟨(C5_expansion_bound "a" "b\nc" 2).1,
    (C5_expansion_bound "a" "b\nc" 2).2.1 (by decide) (by decide)⟩

/-- C6 (counterexample): ingesting one document whose parent unit yields
zero children completes normally — the parent is stored under its
derived id, no children are indexed, and no IngestionError or warning of
any kind exists in the code. -/
theorem C6_zero_children_counterexample :
    addDocuments (fun l => l) (fun _ => []) [docA] ⟨[], []⟩ =
      ⟨[("parent_A", docA)], []⟩ := by
  decide

/-- C6 (amended): add_documents always completes: every parent unit is
stored in the parent map under its content-derived id (a later parent of
the same content overwrites it), and the child index gains exactly each
parent's stamped fine split — a parent whose fine split is empty simply
contributes no children, silently. -/
theorem C6_zero_children_silent (parentSplit : List Doc → List Doc)
    (childSplit : Doc → List Doc) (docs : List Doc) (st : PdrState) :
    (addDocuments parentSplit childSplit docs st).children =
      st.children ++ childrenOf childSplit (parentSplit docs) ∧
    ∀ p ∈ parentSplit docs,
      ∃ q, storeLookup (parentIdOf p) (addDocuments parentSplit childSplit docs st).parents =
        some q ∧ q.content = p.content := by
  constructor
  · exact foldl_addOneParent_children childSplit (parentSplit docs) st
  · intro p hp
    exact foldl_addOneParent_lookup childSplit (parentSplit docs) st hp

/-- C6 (witness): the amended theorem applied to the degenerate split of
the counterexample, extracting the stored parent. -/
theorem C6_zero_children_silent_witness :
    ∃ q, storeLookup (parentIdOf docA)
        (addDocuments (fun l => l) (fun _ => []) [docA] ⟨[], []⟩).parents = some q ∧
      q.content = docA.content :=
  (C6_zero_children_silent (fun l => l) (fun _ => []) [docA] ⟨[], []⟩).2 docA (by decide)

/-- C9: for every query, candidate list, external score list covering
the candidates, and k, reranking returns exactly min(k, number of
candidates) scored documents, sorted non-increasingly by clamped score,
with ties preserving the candidates' input order (the filter
characterisation of a stable sort). -/
theorem C9_rerank_truncation (q : String) (docs : List Doc)
    (scores : List (Option ℚ)) (k : Nat) (h : docs.length ≤ scores.length) :
    ∃ all : List (Doc × ℚ),
      rerankDocuments q docs scores k = some (all.take k) ∧
      (all.take k).length = min k docs.length ∧
      List.Perm all (docs.zip (scores.map clampScore)) ∧
      all.Pairwise (fun a b => b.2 ≤ a.2) ∧
      ∀ s : ℚ, all.filter (fun p => p.2 = s) =
        (docs.zip (scores.map clampScore)).filter (fun p => p.2 = s) := by
  refine ⟨stableSortDesc (fun p => p.2) (docs.zip (scores.map clampScore)), ?_, ?_,
    stableSortDesc_perm _ _, stableSortDesc_sorted _ _, fun s => stableSortDesc_filter _ _ s⟩
  · rw [rerankDocuments, if_pos h]
  · rw [List.length_take, stableSortDesc_length, List.length_zip, List.length_map,
      Nat.min_eq_left h]

/-- C9 (witness): the rerank theorem applied to two candidates with two
scores and k = 1. -/
theorem C9_rerank_truncation_witness :
    ∃ all : List (Doc × ℚ),
      rerankDocuments "q" [docA, docB] [some 1, some 2] 1 = some (all.take 1) ∧
      (all.take 1).length = min 1 ([docA, docB] : List Doc).length ∧
      List.Perm all (([docA, docB] : List Doc).zip (([some 1, some 2] :
        List (Option ℚ)).map clampScore)) ∧
      all.Pairwise (fun a b => b.2 ≤ a.2) ∧
      ∀ s : ℚ, all.filter (fun p => p.2 = s) =
        (([docA, docB] : List Doc).zip (([some 1, some 2] :
          List (Option ℚ)).map clampScore)).filter (fun p => p.2 = s) :=
  C9_rerank_truncation "q" [docA, docB] [some 1, some 2] 1 (by decide)

/-- C10 (counterexample): constructing the combiner with zero retrievers
and no weight list raises ZeroDivisionError (from 1.0 / len(retrievers)),
so the uniform-weight default is not assigned in that case. -/
theorem C10_zero_retrievers_counterexample :
    ensembleInit ([] : List Unit) none = Except.error InitError.zeroDivisionError := rfl

/-- C10 (amended): an explicit weight list whose length differs from the
number of retrievers always fails with ValueError; when no weights are
supplied and there is at least one retriever, every retriever gets the
uniform weight 1/N; with zero retrievers and no weights the constructor
fails with ZeroDivisionError instead. -/
theorem C10_weights_validation {R : Type} (retrievers : List R) (ws : List ℚ) :
    (ws.length ≠ retrievers.length →
      ensembleInit retrievers (some ws) = Except.error InitError.valueError) ∧
    (retrievers ≠ [] →
      ensembleInit retrievers none =
        Except.ok (retrievers, List.replicate retrievers.length (1 / (retrievers.length : ℚ)))) ∧
    (retrievers = [] →
      ensembleInit retrievers none = Except.error InitError.zeroDivisionError) := by
  refine ⟨?_, ?_, ?_⟩
  · intro hne
    rw [ensembleInit, if_pos hne]
  · intro hne
    have hlen : ¬ (retrievers.length = 0) := by
      simpa [List.length_eq_zero] using hne
    rw [ensembleInit, if_neg hlen]
  · intro hnil
    subst hnil
    rfl

/-- C10 (witness): the amended theorem applied to a single retriever
with a mismatched explicit weight list and with no weight list. -/
theorem C10_weights_validation_witness :
    ensembleInit [()] (some []) = Except.error InitError.valueError ∧
    ensembleInit [()] none =
      Except.ok ([()], List.replicate ([()] : List Unit).length
        (1 / (([()] : List Unit).length : ℚ))) :=
  ⟨(C10_weights_validation [()] []).1 (by decide),
    (C10_weights_validation [()] []).2.1 (by simp)⟩

end RAG101
